import Mathlib

/-!
Verification development for the NIFTy multi-resolution grid/indexing
subsystem and auxiliary components (`PowerSpace`, `Field`).

The repository snapshot contains the tests (`test/test_re/test_index.py`)
and demo callers (`demos/a_icr.py`) of `nifty8.re.multi_grid.indexing`
and `nifty8.re.multi_grid.kernel`, but not those modules themselves, so
the grid and frozen-kernel data model below is modelled from the spec.
`PowerSpace` (`nifty2go/spaces/power_space/power_space.py`) and `Field`
(`nifty5/field.py`) are embedded from their source files.

Conventions: a multi-dimensional index is a `List Nat`, one entry per
spatial dimension; a batch of indices is a `List` of such lists.  Shapes
and split factors are `List Nat`.  Construction takes `Int` inputs so
that non-positive (including negative) parameters are representable.
-/

/-- Error taxonomy of the spec (§7): `ConfigurationError`,
`IndexOutOfRangeError`, `DomainMismatchError`; plus the Python-level
`AssertionError` (used by `PowerSpace.__init__`) and `TypeError`
(raised by `Field.__bool__`). -/
inductive NiftyError where
  | configurationError
  | indexOutOfRange
  | domainMismatch
  | assertionError
  | typeError
  deriving DecidableEq, Repr

/-- Modelled from the spec: a Cartesian `Grid` from
`nifty8.re.multi_grid.indexing` (module absent from the snapshot; spec
§3, §4.1).  A grid is an initial shape together with the per-level,
per-dimension positive split factors; level `k`'s shape is the
cumulative per-dimension product of `shape0` and the first `k` split
vectors. -/
structure Grid where
  shape0 : List Nat
  splits : List (List Nat)
  deriving DecidableEq, Repr

namespace Grid

/-- Number of split operations applied; the grid has `depth + 1` levels. -/
def depth (g : Grid) : Nat := g.splits.length

/-- Number of spatial dimensions. -/
def ndim (g : Grid) : Nat := g.shape0.length

/-- The split vector used between level `k` and level `k+1`. -/
def splitAt (g : Grid) (k : Nat) : List Nat :=
  g.splits.getD k (List.replicate g.ndim 1)

/-- Shape of level `k`: cumulative per-dimension product of `shape0`
and the first `k` split vectors (spec §4.1 "level shape at depth `k` is
the cumulative product"). -/
def shapeAt (g : Grid) (k : Nat) : List Nat :=
  (g.splits.take k).foldl (fun s f => List.zipWith (· * ·) s f) g.shape0

/-- Total number of cells at level `k`. -/
def sizeAt (g : Grid) (k : Nat) : Nat := (g.shapeAt k).prod

/-- Validity of an index at level `k`: one coordinate per dimension,
each in `[0, shape[i])` (spec §3 "Index"). -/
def validIndex (g : Grid) (k : Nat) (idx : List Nat) : Prop :=
  idx.length = g.ndim ∧
    ∀ i : Nat, ∀ h : i < idx.length,
      idx.get ⟨i, h⟩ < (g.shapeAt k).getD i 0

instance (g : Grid) (k : Nat) (idx : List Nat) :
    Decidable (g.validIndex k idx) := by
  unfold validIndex; infer_instance

end Grid

/-- All per-dimension offsets `0 ≤ o[i] < s[i]`, in row-major order
(first dimension slowest).  These are the relative positions of a
cell's children under split vector `s` (spec §4.1 "offset ranging over
the Cartesian product"). -/
def offsets : List Nat → List (List Nat)
  | [] => [[]]
  | s :: rest => (List.range s).flatMap fun o => (offsets rest).map (o :: ·)

namespace Grid

/-- Children of `idx` at level `k`: `idx * split[k] + offset` for every
offset in the Cartesian product of the per-dimension split ranges
(spec §4.1). -/
def children (g : Grid) (k : Nat) (idx : List Nat) : List (List Nat) :=
  (offsets (g.splitAt k)).map fun o =>
    List.zipWith (fun p so => p.1 * p.2 + so) (idx.zip (g.splitAt k)) o

/-- Parent of a level-`k` index, at level `k - 1`: per-dimension floor
division by the split factor between levels `k-1` and `k` (spec §4.1). -/
def parent (g : Grid) (k : Nat) (idx : List Nat) : List Nat :=
  List.zipWith (· / ·) idx (g.splitAt (k - 1))

/-- One-dimensional clipped window: the `w` cells centred on `i`,
clamped into `[0, n)` (spec §4.1 "Neighborhood of `idx` with window `w`
(odd) is the Cartesian product of `idx[i] + [-(w[i]//2) .. w[i]//2]`
per dimension, clipped ... per boundary policy"). -/
def nbhd1 (n i w : Nat) : List Nat :=
  (List.range w).map fun t =>
    ((min (max ((i : Int) + t - (w / 2 : Nat)) 0) ((n : Int) - 1))).toNat

/-- Neighborhood of `idx` at level `k` under window `w`: Cartesian
product of the per-dimension clipped windows. -/
def neighborhood (g : Grid) (k : Nat) (idx : List Nat) (w : List Nat) :
    List (List Nat) :=
  let axes := List.zipWith (fun p wi => nbhd1 p.2 p.1 wi)
    (idx.zip (g.shapeAt k)) w
  axes.foldr (fun ax acc => ax.flatMap fun a => acc.map (a :: ·)) [[]]

/-- Modelled from the spec: the `Grid` constructor (spec §4.1).  Fails
with `ConfigurationError` if any `shape0` entry or any split factor is
non-positive, or if a split vector's dimensionality does not match
`shape0`; nothing is constructed on failure. -/
def make (shape0 : List Int) (splits : List (List Int)) :
    Except NiftyError Grid :=
  if shape0.all (0 < ·) ∧
      splits.all fun sp => sp.length = shape0.length ∧ sp.all (0 < ·) then
    .ok ⟨shape0.map Int.toNat, splits.map (·.map Int.toNat)⟩
  else
    .error .configurationError

/-- Modelled from the spec: `amend(extra_splits)` returns a new grid
with the extra split vectors appended, levels `0..depth` unchanged
(spec §4.1). -/
def amend (g : Grid) (extra : List (List Nat)) : Grid :=
  ⟨g.shape0, g.splits ++ extra⟩

end Grid

/-- Modelled from the spec: `HEALPixGrid` from
`nifty8.re.multi_grid.indexing` (module absent from the snapshot; spec
§4.3).  Level `k` is a HEALPix pixelization with resolution parameter
`nside = nside0 * 2^k`; pixel indices are one-dimensional. -/
structure HEALPixGrid where
  nside0 : Nat
  depth : Nat
  deriving DecidableEq, Repr

namespace HEALPixGrid

/-- Resolution parameter of level `k`: `nside0 * 2^k` (spec §4.3). -/
def nsideAt (g : HEALPixGrid) (k : Nat) : Nat := g.nside0 * 2 ^ k

/-- Level-`k` shape: a HEALPix sphere with resolution `nside` has
`12 * nside^2` pixels, as a one-dimensional index space. -/
def shapeAt (g : HEALPixGrid) (k : Nat) : List Nat :=
  [12 * (g.nsideAt k) ^ 2]

/-- Children of a pixel under the standard HEALPix nested subdivision:
the 4 pixels `4*idx .. 4*idx+3` at the next finer level (spec §4.3). -/
def children (_g : HEALPixGrid) (_k : Nat) (idx : List Nat) :
    List (List Nat) :=
  (List.range 4).map fun o => idx.map fun i => 4 * i + o

/-- Parent of a pixel under nested subdivision: floor division by 4. -/
def parent (_g : HEALPixGrid) (_k : Nat) (idx : List Nat) : List Nat :=
  idx.map (· / 4)

/-- Modelled from the spec: `neighborhood(idx, window)` returns up to
`window`-count pixels from the HEALPix adjacency at the level's
resolution (spec §4.3).  The exact ring-adjacency pixel choice is not
pinned down by the spec; it is abstracted here to an index-arithmetic
stand-in that depends only on the level's `nside`, the pixel index and
the window — the dependence structure the amendment and composition
claims are about. -/
def neighborhood (g : HEALPixGrid) (k : Nat) (idx : List Nat)
    (w : List Nat) : List (List Nat) :=
  (List.range (w.getD 0 0)).map fun t =>
    idx.map fun i => (i + t) % (12 * (g.nsideAt k) ^ 2)

/-- Modelled from the spec: the `HEALPixGrid` constructor; a
non-positive `nside0` is a configuration error. -/
def make (nside0 : Int) (depth : Nat) : Except NiftyError HEALPixGrid :=
  if 0 < nside0 then .ok ⟨nside0.toNat, depth⟩
  else .error .configurationError

/-- Modelled from the spec: `amend(added_depth)` extends the grid by
`added_depth` finer levels (spec §4.3). -/
def amend (g : HEALPixGrid) (added : Nat) : HEALPixGrid :=
  ⟨g.nside0, g.depth + added⟩

end HEALPixGrid

/-- The grid `Grid(shape0=(3,), splits=(2,))` of the end-to-end
scenario (spec §8, `test_Grid`). -/
def gridC7 : Grid := ⟨[3], [[2]]⟩

/-- Well-formedness of a grid as guaranteed by the constructor: all
`shape0` entries positive and every split vector of the right
dimensionality with positive factors. -/
def Grid.WF (g : Grid) : Prop :=
  (∀ x ∈ g.shape0, 0 < x) ∧
    ∀ sp ∈ g.splits, sp.length = g.ndim ∧ ∀ s ∈ sp, 0 < s

/-- Modelled from the spec: `GridAtLevel`-style bundled per-level query
interface shared by the grid variants (spec §2, §9 "one capability
interface").  `OGrid` composes values of this type. -/
structure AbsGrid where
  depth : Nat
  shapeAt : Nat → List Nat
  children : Nat → List Nat → List (List Nat)
  parent : Nat → List Nat → List Nat
  neighborhood : Nat → List Nat → List Nat → List (List Nat)

/-- The capability interface of a Cartesian grid. -/
def Grid.toAbs (g : Grid) : AbsGrid :=
  ⟨g.depth, g.shapeAt, g.children, g.parent, g.neighborhood⟩

/-- The capability interface of a HEALPix grid. -/
def HEALPixGrid.toAbs (g : HEALPixGrid) : AbsGrid :=
  ⟨g.depth, g.shapeAt, g.children, g.parent, g.neighborhood⟩

/-- Children of a sub-grid inside an `OGrid` at combined level `k`: a
sub-grid shallower than `k` stays at its deepest level and contributes
its own index unchanged (spec §4.6: a sub-grid's level at combined
depth `k` is its level `min(k, depth)`). -/
def AbsGrid.childrenOrSelf (g : AbsGrid) (k : Nat) (i : List Nat) :
    List (List Nat) :=
  if k < g.depth then g.children k i else [i]

/-- Parent of a sub-grid's slice inside an `OGrid` at combined level
`k`; an exhausted sub-grid contributes its index unchanged. -/
def AbsGrid.parentOrSelf (g : AbsGrid) (k : Nat) (i : List Nat) :
    List Nat :=
  if k ≤ g.depth then g.parent k i else i

/-- Split a concatenated index into per-sub-grid slices of the given
dimensionalities. -/
def sliceBy : List Nat → List Nat → List (List Nat)
  | [], _ => []
  | n :: rest, l => l.take n :: sliceBy rest (l.drop n)

/-- Outer product of per-sub-grid result lists: all concatenations of
one result from each sub-grid, first sub-grid slowest. -/
def outerProd : List (List (List Nat)) → List (List Nat)
  | [] => [[]]
  | ls :: rest => ls.flatMap fun x => (outerProd rest).map (x ++ ·)

namespace OGrid

/-- Modelled from the spec: the depth of an `OGrid` is the greatest
component depth (spec §4.6). -/
def depth (gs : List AbsGrid) : Nat := gs.foldr (fun g a => max g.depth a) 0

/-- Per-sub-grid dimensionalities at combined level `k`. -/
def ndims (gs : List AbsGrid) (k : Nat) : List Nat :=
  gs.map fun g => (g.shapeAt (min k g.depth)).length

/-- Modelled from the spec: the combined level-`k` shape is the
concatenation of each sub-grid's shape at its level `min(k, depth)`
(spec §4.6). -/
def shapeAt (gs : List AbsGrid) (k : Nat) : List Nat :=
  (gs.map fun g => g.shapeAt (min k g.depth)).flatten

/-- Modelled from the spec: combined children are the outer product of
each sub-grid's children applied to its slice of the index (spec §4.6). -/
def children (gs : List AbsGrid) (k : Nat) (idx : List Nat) :
    List (List Nat) :=
  outerProd (List.zipWith (fun g i => g.childrenOrSelf k i) gs
    (sliceBy (ndims gs k) idx))

/-- Modelled from the spec: the combined parent is the concatenation of
each sub-grid's parent applied to its slice of the index (spec §4.6). -/
def parent (gs : List AbsGrid) (k : Nat) (idx : List Nat) : List Nat :=
  (List.zipWith (fun g i => g.parentOrSelf k i) gs
    (sliceBy (ndims gs k) idx)).flatten

/-- Modelled from the spec: the combined neighborhood is the outer
product of each sub-grid's neighborhood applied to its slices of the
index and of the window (spec §4.6). -/
def neighborhood (gs : List AbsGrid) (k : Nat) (idx w : List Nat) :
    List (List Nat) :=
  outerProd (List.zipWith (fun g p => g.neighborhood (min k g.depth) p.1 p.2)
    gs ((sliceBy (ndims gs k) idx).zip (sliceBy (ndims gs k) w)))

end OGrid

/-- Row-major (C-order, `"serial"`) flat index of a multi-dimensional
index under a shape: first dimension slowest. -/
def flatten : List Nat → List Nat → Nat
  | _ :: srest, i :: irest => i * srest.prod + flatten srest irest
  | _, _ => 0

/-- Inverse of `flatten`: the multi-dimensional index of a row-major
flat position under a shape. -/
def unflatten : List Nat → Nat → List Nat
  | [], _ => []
  | _ :: srest, f => f / srest.prod :: unflatten srest (f % srest.prod)

/-- Modelled from the spec: the `"nest"` ordering of `FlatGrid`
(spec §4.4): a hierarchical ordering in which a cell's flat index is
its parent's flat index scaled by the number of children per parent,
plus the row-major rank of the cell's offset within its parent.  At
level 0 it coincides with the row-major ordering. -/
def nestIndex (g : Grid) : Nat → List Nat → Nat
  | 0, idx => flatten g.shape0 idx
  | k + 1, idx =>
      nestIndex g k (List.zipWith (· / ·) idx (g.splitAt k)) *
          (g.splitAt k).prod +
        flatten (g.splitAt k) (List.zipWith (· % ·) idx (g.splitAt k))

/-- Inverse of `nestIndex`: reconstructs the multi-dimensional index
from a nest-ordered flat position. -/
def nestUnindex (g : Grid) : Nat → Nat → List Nat
  | 0, f => unflatten g.shape0 f
  | k + 1, f =>
      List.zipWith (fun p so => p.1 * p.2 + so)
        ((nestUnindex g k (f / (g.splitAt k).prod)).zip (g.splitAt k))
        (unflatten (g.splitAt k) (f % (g.splitAt k).prod))

/-- The two orderings accepted by `FlatGrid` (spec §4.4). -/
inductive FOrdering where
  | serial
  | nest
  deriving DecidableEq, Repr

/-- Per-level bijection of a `FlatGrid`: multi-dimensional index to
flat index under the chosen ordering. -/
def ordIndex (g : Grid) : FOrdering → Nat → List Nat → Nat
  | .serial, k, idx => flatten (g.shapeAt k) idx
  | .nest, k, idx => nestIndex g k idx

/-- Per-level bijection of a `FlatGrid`: flat index back to the
multi-dimensional index under the chosen ordering. -/
def ordUnindex (g : Grid) : FOrdering → Nat → Nat → List Nat
  | .serial, k, f => unflatten (g.shapeAt k) f
  | .nest, k, f => nestUnindex g k f

/-- Modelled from the spec: `FlatGrid` wraps a grid and an ordering
(spec §4.4). -/
structure FlatGrid where
  base : Grid
  ordering : FOrdering

namespace FlatGrid

/-- Modelled from the spec: `FlatGrid.children` accepts and returns
flat indices, delegating to the wrapped grid through the per-level
bijection (spec §4.4). -/
def children (fg : FlatGrid) (k : Nat) (f : Nat) : List Nat :=
  (fg.base.children k (ordUnindex fg.base fg.ordering k f)).map
    (ordIndex fg.base fg.ordering (k + 1))

/-- Modelled from the spec: `FlatGrid.parent` on flat indices via the
bijection (spec §4.4). -/
def parent (fg : FlatGrid) (k : Nat) (f : Nat) : Nat :=
  ordIndex fg.base fg.ordering (k - 1)
    (fg.base.parent k (ordUnindex fg.base fg.ordering k f))

/-- Modelled from the spec: `FlatGrid.neighborhood` on flat indices via
the bijection (spec §4.4). -/
def neighborhood (fg : FlatGrid) (k : Nat) (f : Nat) (w : List Nat) :
    List Nat :=
  (fg.base.neighborhood k (ordUnindex fg.base fg.ordering k f) w).map
    (ordIndex fg.base fg.ordering k)

end FlatGrid

/-- Modelled from the spec: the bounded cache of a `FrozenKernel`, most
recently used entry first; each entry maps a scalar distance key (the
`use_distances=True` signature of spec §4.7) to a covariance value. -/
abbrev KCache := List (ℚ × ℚ)

/-- Tolerance test of the frozen-kernel cache (spec §4.7): a raw key
`d` hits an existing cache key `d'` when the two are within
`atol + rtol * |d|`; explicitly a tolerance comparison, not equality. -/
def tolMatch (rtol atol d d' : ℚ) : Bool := |d - d'| ≤ atol + rtol * |d|

/-- Approximate cache lookup: the most recently used entry whose key is
within tolerance of the query key. -/
def cacheFind (rtol atol : ℚ) (c : KCache) (d : ℚ) : Option (ℚ × ℚ) :=
  c.find? fun e => tolMatch rtol atol d e.1

/-- Modelled from the spec: one freeze-time cache transition
(spec §4.7).  A hit moves the entry to the front (most recently used);
a miss evaluates the true kernel, inserts the new entry in front and
evicts the least recently used entry when the buffer is full. -/
def freezeStep (kernel : ℚ → ℚ) (rtol atol : ℚ) (bufferSize : Nat)
    (c : KCache) (d : ℚ) : KCache :=
  match cacheFind rtol atol c d with
  | some e => e :: c.erase e
  | none => ((d, kernel d) :: c).take bufferSize

/-- Modelled from the spec: the cache precomputed by `freeze` over the
sequence of distance keys arising from the grid's per-level window
signatures (spec §4.7). -/
def freezeCache (kernel : ℚ → ℚ) (rtol atol : ℚ) (bufferSize : Nat)
    (keys : List ℚ) : KCache :=
  keys.foldl (freezeStep kernel rtol atol bufferSize) []

/-- Modelled from the spec: `FrozenKernel` — an immutable precomputed
kernel built once by `freeze` (spec §3, §4.7). -/
structure FrozenKernel where
  kernel : ℚ → ℚ
  rtol : ℚ
  atol : ℚ
  cache : KCache

/-- Evaluation of a frozen kernel at a distance key: a within-tolerance
cache hit returns the cached value; a miss evaluates the true kernel.
Per spec §2 the frozen callable is side-effect-free, so evaluation does
not modify the cache. -/
def FrozenKernel.eval (fk : FrozenKernel) (d : ℚ) : ℚ :=
  match cacheFind fk.rtol fk.atol fk.cache d with
  | some e => e.2
  | none => fk.kernel d

/-- One call of the frozen kernel on a batch of distance keys. -/
def FrozenKernel.call (fk : FrozenKernel) (xs : List ℚ) : List ℚ :=
  xs.map fk.eval

/-- A session of repeated calls of the same frozen kernel; since the
frozen callable is side-effect-free (spec §2), no state is threaded
between calls. -/
def FrozenKernel.session (fk : FrozenKernel) (batches : List (List ℚ)) :
    List (List ℚ) :=
  batches.map fk.call

/-- Modelled from the spec: `freeze(rtol, atol, buffer_size,
use_distances)` (spec §4.7, §4.7 failure modes).  `buffer_size <= 0`
is a `ConfigurationError`; otherwise the bounded cache is precomputed
over the supplied distance keys. -/
def freeze (kernel : ℚ → ℚ) (rtol atol : ℚ) (bufferSize : Nat)
    (keys : List ℚ) : Except NiftyError FrozenKernel :=
  if bufferSize = 0 then .error .configurationError
  else .ok ⟨kernel, rtol, atol, freezeCache kernel rtol atol bufferSize keys⟩

/-- A covariance function with a jump, used to exhibit the gap between
the cache's key tolerance and the claimed value tolerance. -/
def kJump : ℚ → ℚ := fun d => if d ≤ 1 then 0 else 100

/-- The frozen kernel produced by `freeze kJump 0 1 10 [1, 2]`: the key
2 is an approximate hit on the cached key 1, so only `(1, kJump 1)` is
retained. -/
def fkC4 : FrozenKernel := ⟨kJump, 0, 1, [(1, 0)]⟩

/-- `np.searchsorted(a, v)` for sorted `a` (left insertion point): the
number of entries of `a` strictly below `v`.  Embeds the call in
`PowerSpace._compute_pindex` (`power_space.py`). -/
def searchsorted (a : List ℚ) (v : ℚ) : Nat := a.countP (· < v)

/-- `np.bincount(l)`: entry `i` counts the occurrences of `i` in `l`;
the length is one more than the largest value (zero for empty input). -/
def bincount (l : List Nat) : List Nat :=
  (List.range (l.foldr (fun x m => max (x + 1) m) 0)).map fun i => l.count i

/-- `np.bincount(l, weights)`: entry `i` sums the weights at positions
holding value `i`. -/
def bincountWeighted (l : List Nat) (wts : List ℚ) : List ℚ :=
  (List.range (l.foldr (fun x m => max (x + 1) m) 0)).map fun i =>
    (((l.zip wts).filter fun p => p.1 == i).map Prod.snd).sum

/-- The data of a constructed `PowerSpace`
(`nifty2go/spaces/power_space/power_space.py`): the bin assignment of
every harmonic-partner pixel (`pindex`), the per-bin pixel counts
(`rho`) and the per-bin averaged k-mode lengths (`kindex`). -/
structure PowerSpace where
  binbounds : List ℚ
  pindex : List Nat
  kindex : List ℚ
  rho : List Nat
  deriving DecidableEq, Repr

namespace PowerSpace

/-- `PowerSpace._compute_pindex`: the bin index of every pixel is the
left insertion point of its distance into the (sorted) bin bounds. -/
def compute_pindex (binbounds : List ℚ) (distance_array : List ℚ) :
    List Nat :=
  distance_array.map (searchsorted binbounds)

/-- `PowerSpace.__init__` on a cache miss (`power_space.py` lines
129-146): computes `pindex` from the harmonic partner's distance array,
`rho` as the bincount of `pindex`, asserts that no bin is empty
(`assert not np.any(temp_rho == 0)`), and computes `kindex` as the
weighted bincount divided per-bin by `rho`.  The class-level
`_powerIndexCache` only memoizes tuples that already passed this
assertion, so every constructed instance carries validated data. -/
def make (distance_array : List ℚ) (binbounds : List ℚ) :
    Except NiftyError PowerSpace :=
  if (bincount (compute_pindex binbounds distance_array)).any (· == 0) then
    .error .assertionError
  else
    .ok ⟨binbounds, compute_pindex binbounds distance_array,
      List.zipWith (· / ·)
        (bincountWeighted (compute_pindex binbounds distance_array)
          distance_array)
        ((bincount (compute_pindex binbounds distance_array)).map
          (fun r => (r : ℚ))),
      bincount (compute_pindex binbounds distance_array)⟩

end PowerSpace

/-- The data of a `Field` (`nifty5/field.py`): a domain shape and the
stored values.  Only what the boolean-conversion claim needs.  (Named
inside a namespace because Mathlib already declares `Field`.) -/
structure Nifty.Field where
  domain : List Nat
  val : List ℚ

/-- `Field.__bool__` / `Field.__nonzero__` (`field.py` lines 81-86):
truth-testing a `Field` unconditionally raises `TypeError`. -/
def Nifty.Field.toBool (_f : Nifty.Field) : Except NiftyError Bool :=
  .error .typeError

/-- A concrete `PowerSpace` over distances `[0, 1, 2]` with bin bounds
`[1/2, 3/2]`: one pixel per bin. -/
def psC9 : PowerSpace := ⟨[1/2, 3/2], [0, 1, 2], [0, 1, 2], [1, 1, 1]⟩

/-- First `OGrid` component of the composition test:
`Grid(shape0=(3,), splits=(2,2,2))`, depth 3 (spec §8). -/
def gridC3a : Grid := ⟨[3], [[2], [2], [2]]⟩

/-- Second `OGrid` component: `HEALPixGrid(nside0=4, depth=3)`. -/
def hpxC3 : HEALPixGrid := ⟨4, 3⟩

/-- Third `OGrid` component: `Grid(shape0=(3,5), splits=((1,2),)*4)`,
depth 4. -/
def gridC3b : Grid := ⟨[3, 5], [[1, 2], [1, 2], [1, 2], [1, 2]]⟩

/-- The `OGrid` composing the three component grids of differing depth. -/
def ogC3 : List AbsGrid := [gridC3a.toAbs, hpxC3.toAbs, gridC3b.toAbs]

/-- Every offset vector produced by `offsets s` is pointwise below `s`. -/
theorem forall₂_of_mem_offsets {s o : List Nat} (h : o ∈ offsets s) :
    List.Forall₂ (· < ·) o s := by
  induction s generalizing o with
  | nil => simp only [offsets, List.mem_singleton] at h; subst h; constructor
  | cons a rest ih =>
    simp only [offsets, List.mem_flatMap, List.mem_map, List.mem_range] at h
    obtain ⟨b, hb, o', ho', rfl⟩ := h
    exact List.Forall₂.cons hb (ih ho')

/-- `offsets s` enumerates exactly `s.prod` offset vectors. -/
theorem length_offsets (s : List Nat) : (offsets s).length = s.prod := by
  induction s with
  | nil => rfl
  | cons a rest ih =>
    simp only [offsets, List.length_flatMap, Function.comp_def,
      List.length_map, ih, List.map_const', List.length_range,
      List.sum_replicate, smul_eq_mul, List.prod_cons]

/-- Scalar form of the parent-of-child identity: for a positive split
factor `s` and offset `o < s`, floor division undoes `p * s + o`. -/
theorem child_div (p s o : Nat) (hs : 0 < s) (ho : o < s) :
    (p * s + o) / s = p := by
  rw [Nat.mul_comm, Nat.mul_add_div hs, Nat.div_eq_of_lt ho, Nat.add_zero]

/-- Vector form of the parent-of-child identity: pointwise division of
a child index by the split vector recovers the parent index. -/
theorem zip_child_div (idx sp o : List Nat) (hl : idx.length = sp.length)
    (hsp : ∀ s ∈ sp, 0 < s) (ho : List.Forall₂ (· < ·) o sp) :
    List.zipWith (· / ·)
      (List.zipWith (fun p so => p.1 * p.2 + so) (idx.zip sp) o) sp = idx := by
  induction idx generalizing sp o with
  | nil => simp
  | cons i it ih =>
    cases sp with
    | nil => simp at hl
    | cons s st =>
      cases ho with
      | cons h₁ h₂ =>
        rename_i oh ot
        simp only [List.zip_cons_cons, List.zipWith_cons_cons, List.cons.injEq]
        refine ⟨child_div _ _ _ (hsp s (List.mem_cons_self s st)) h₁, ?_⟩
        exact ih st ot (by simpa using hl) (fun x hx => hsp x (List.mem_cons_of_mem s hx)) h₂

/-- A successfully constructed grid has split vectors matching the
dimensionality of `shape0`, with every factor positive. -/
theorem Grid.make_ok_splits {shape0 : List Int} {splits : List (List Int)}
    {g : Grid} (hg : Grid.make shape0 splits = .ok g) :
    ∀ sp ∈ g.splits, sp.length = g.ndim ∧ ∀ s ∈ sp, 0 < s := by
  unfold Grid.make at hg
  split at hg
  · rename_i hcond
    obtain ⟨-, h2⟩ := hcond
    cases hg
    intro sp hsp
    simp only [Grid.ndim, List.mem_map] at hsp ⊢
    obtain ⟨sp', hsp', rfl⟩ := hsp
    have := (List.all_eq_true.mp h2) sp' hsp'
    simp only [decide_eq_true_eq] at this
    refine ⟨by simpa using this.1, ?_⟩
    intro s hs
    simp only [List.mem_map] at hs
    obtain ⟨x, hx, rfl⟩ := hs
    have hx0 := (List.all_eq_true.mp this.2) x hx
    simp only [decide_eq_true_eq] at hx0
    omega
  · cases hg

/-- For a level strictly above the grid's depth, `splitAt` is the
stored split vector at that position. -/
theorem Grid.splitAt_lt {g : Grid} {k : Nat} (hk : k < g.depth) :
    g.splitAt k ∈ g.splits := by
  unfold Grid.splitAt
  rw [List.getD_eq_getElem g.splits _ hk]
  exact List.getElem_mem hk

/-- C1: for every successfully constructed grid, every level
`k < depth` and every valid index `idx` at level `k`, `children(idx)`
has exactly `product(split[k])` elements and applying `parent` at level
`k+1` to every element of `children(idx)` returns `idx` exactly (the
broadcast equality over the extra axes appended by `children`); the
analogous identity holds for the HEALPix nested subdivision, whose
split count is 4. -/
theorem grid_C1_parent_children
    (shape0 : List Int) (splits : List (List Int)) (g : Grid)
    (hg : Grid.make shape0 splits = .ok g)
    (k : Nat) (hk : k < g.depth)
    (idx : List Nat) (hidx : g.validIndex k idx)
    (hp : HEALPixGrid) (kh : Nat) (i : Nat)
    (_hi : i < 12 * (hp.nsideAt kh) ^ 2) :
    ((g.children k idx).length = (g.splitAt k).prod ∧
      (g.children k idx).map (g.parent (k + 1)) =
        List.replicate (g.splitAt k).prod idx) ∧
    ((hp.children kh [i]).length = 4 ∧
      (hp.children kh [i]).map (hp.parent (kh + 1)) =
        List.replicate 4 [i]) := by
  have hsp := Grid.make_ok_splits hg (g.splitAt k) (Grid.splitAt_lt hk)
  have hl : idx.length = (g.splitAt k).length := by
    rw [hidx.1, hsp.1]
  refine ⟨⟨?_, ?_⟩, ?_, ?_⟩
  · simp [Grid.children, length_offsets]
  · refine List.eq_replicate_iff.mpr ⟨?_, ?_⟩
    · simp [Grid.children, length_offsets]
    · intro b hb
      simp only [List.mem_map] at hb
      obtain ⟨c, hc, rfl⟩ := hb
      simp only [Grid.children, List.mem_map] at hc
      obtain ⟨o, ho, rfl⟩ := hc
      unfold Grid.parent
      simpa using zip_child_div idx (g.splitAt k) o hl hsp.2
        (forall₂_of_mem_offsets ho)
  · rfl
  · refine List.eq_replicate_iff.mpr ⟨by simp [HEALPixGrid.children], ?_⟩
    intro b hb
    simp only [List.mem_map] at hb
    obtain ⟨c, hc, rfl⟩ := hb
    simp only [HEALPixGrid.children, List.mem_map, List.mem_range] at hc
    obtain ⟨o, ho, rfl⟩ := hc
    simp only [HEALPixGrid.parent, List.map_cons, List.map_nil,
      List.cons.injEq, and_true]
    omega

/-- Witness for C1 at `Grid(shape0=(3,), splits=(2,))`, level 0, index
`[1]`, and `HEALPixGrid(nside0=1, depth=1)` at pixel 5. -/
theorem grid_C1_parent_children_witness :
    ((Grid.make [3] [[2]]).isOk ∧ 0 < gridC7.depth ∧
      gridC7.validIndex 0 [1] ∧
      5 < 12 * ((⟨1, 1⟩ : HEALPixGrid).nsideAt 0) ^ 2) ∧
    (((gridC7.children 0 [1]).length = (gridC7.splitAt 0).prod ∧
      (gridC7.children 0 [1]).map (gridC7.parent 1) =
        List.replicate (gridC7.splitAt 0).prod [1]) ∧
     (((⟨1, 1⟩ : HEALPixGrid).children 0 [5]).length = 4 ∧
      ((⟨1, 1⟩ : HEALPixGrid).children 0 [5]).map
          ((⟨1, 1⟩ : HEALPixGrid).parent 1) = List.replicate 4 [5])) :=
  ⟨⟨by rfl, by decide, by decide, by decide⟩,
    grid_C1_parent_children [3] [[2]] gridC7 (by rfl) 0 (by decide)
      [1] (by decide) ⟨1, 1⟩ 0 5 (by decide)⟩

/-- C7: `Grid(shape0=(3,), splits=(2,))` is constructed successfully,
has depth 1, level-0 shape `(3,)` and level-1 shape `(6,)`;
`children([1])` at level 0 returns exactly the indices 2 and 3, and
`parent` at level 1 maps each of `[2]` and `[3]` back to `[1]`. -/
theorem grid_C7_end_to_end :
    Grid.make [3] [[2]] = .ok gridC7 ∧
    gridC7.depth = 1 ∧
    gridC7.shapeAt 0 = [3] ∧
    gridC7.shapeAt 1 = [6] ∧
    gridC7.children 0 [1] = [[2], [3]] ∧
    (gridC7.children 0 [1]).map (gridC7.parent 1) = [[1], [1]] := by
  refine ⟨rfl, rfl, rfl, rfl, ?_, ?_⟩ <;> decide

/-- C2: amendment is referentially consistent.  Splitting a split
sequence at any point `m`, constructing the prefix grid and amending it
with the suffix yields a grid whose size, shape, ndim, children, parent
and neighborhood queries at every level `k ≤ m` are identical to the
grid constructed directly from the full split sequence; likewise
`HEALPixGrid(nside0, depth).amend(added_depth=e)` answers every query
at every shared level identically to `HEALPixGrid(nside0, depth+e)`. -/
theorem grid_C2_amend_consistency
    (shape0 : List Nat) (splits : List (List Nat)) (m : Nat)
    (_hm : m ≤ splits.length) (k : Nat) (_hk : k ≤ m)
    (nside0 dh e kh : Nat) (_hkh : kh ≤ dh) (idx w : List Nat) :
    (((Grid.mk shape0 (splits.take m)).amend (splits.drop m)).sizeAt k =
        (Grid.mk shape0 splits).sizeAt k ∧
      ((Grid.mk shape0 (splits.take m)).amend (splits.drop m)).shapeAt k =
        (Grid.mk shape0 splits).shapeAt k ∧
      ((Grid.mk shape0 (splits.take m)).amend (splits.drop m)).ndim =
        (Grid.mk shape0 splits).ndim ∧
      ((Grid.mk shape0 (splits.take m)).amend (splits.drop m)).children k idx =
        (Grid.mk shape0 splits).children k idx ∧
      ((Grid.mk shape0 (splits.take m)).amend (splits.drop m)).parent k idx =
        (Grid.mk shape0 splits).parent k idx ∧
      ((Grid.mk shape0 (splits.take m)).amend (splits.drop m)).neighborhood
          k idx w =
        (Grid.mk shape0 splits).neighborhood k idx w) ∧
    (((HEALPixGrid.mk nside0 dh).amend e).shapeAt kh =
        (HEALPixGrid.mk nside0 (dh + e)).shapeAt kh ∧
      ((HEALPixGrid.mk nside0 dh).amend e).children kh idx =
        (HEALPixGrid.mk nside0 (dh + e)).children kh idx ∧
      ((HEALPixGrid.mk nside0 dh).amend e).parent kh idx =
        (HEALPixGrid.mk nside0 (dh + e)).parent kh idx ∧
      ((HEALPixGrid.mk nside0 dh).amend e).neighborhood kh idx w =
        (HEALPixGrid.mk nside0 (dh + e)).neighborhood kh idx w) := by
  have hg : (Grid.mk shape0 (splits.take m)).amend (splits.drop m) =
      Grid.mk shape0 splits := by
    simp [Grid.amend]
  rw [hg]
  exact ⟨⟨rfl, rfl, rfl, rfl, rfl, rfl⟩, rfl, rfl, rfl, rfl⟩

/-- Witness for C2 at `shape0 = (3,)`, `splits = ((2,), (4,))` split at
`m = 1`, level 1, and `HEALPixGrid(nside0=2, depth=1)` amended by 2 at
level 1. -/
theorem grid_C2_amend_consistency_witness :
    ((1 : Nat) ≤ ([[2], [4]] : List (List Nat)).length ∧ (1 : Nat) ≤ 1) ∧
    (((Grid.mk [3] [[2]]).amend [[4]]).sizeAt 1 =
        (Grid.mk [3] [[2], [4]]).sizeAt 1 ∧
      ((Grid.mk [3] [[2]]).amend [[4]]).shapeAt 1 =
        (Grid.mk [3] [[2], [4]]).shapeAt 1 ∧
      ((Grid.mk [3] [[2]]).amend [[4]]).ndim =
        (Grid.mk [3] [[2], [4]]).ndim ∧
      ((Grid.mk [3] [[2]]).amend [[4]]).children 1 [1] =
        (Grid.mk [3] [[2], [4]]).children 1 [1] ∧
      ((Grid.mk [3] [[2]]).amend [[4]]).parent 1 [1] =
        (Grid.mk [3] [[2], [4]]).parent 1 [1] ∧
      ((Grid.mk [3] [[2]]).amend [[4]]).neighborhood 1 [1] [3] =
        (Grid.mk [3] [[2], [4]]).neighborhood 1 [1] [3]) ∧
    (((HEALPixGrid.mk 2 1).amend 2).shapeAt 1 =
        (HEALPixGrid.mk 2 (1 + 2)).shapeAt 1 ∧
      ((HEALPixGrid.mk 2 1).amend 2).children 1 [1] =
        (HEALPixGrid.mk 2 (1 + 2)).children 1 [1] ∧
      ((HEALPixGrid.mk 2 1).amend 2).parent 1 [1] =
        (HEALPixGrid.mk 2 (1 + 2)).parent 1 [1] ∧
      ((HEALPixGrid.mk 2 1).amend 2).neighborhood 1 [1] [3] =
        (HEALPixGrid.mk 2 (1 + 2)).neighborhood 1 [1] [3]) :=
  ⟨⟨by decide, by decide⟩,
    grid_C2_amend_consistency [3] [[2], [4]] 1 (by decide) 1 (by decide)
      2 1 2 1 (by decide) [1] [3]⟩

/-- C5: a frozen kernel is deterministic.  In any session of calls, two
calls whose input batches are identical return identical outputs, no
matter what other calls happen before or between them: per spec §2 the
callable returned by `freeze` is side-effect-free, so no eviction
history can distinguish the two calls. -/
theorem frozen_C5_determinism (fk : FrozenKernel) (batches : List (List ℚ))
    (i j : Nat) (hi : i < batches.length) (hj : j < batches.length)
    (hij : batches.getD i [] = batches.getD j []) :
    (fk.session batches).getD i [] = (fk.session batches).getD j [] := by
  unfold FrozenKernel.session
  rw [List.getD_eq_getElem _ _ (by simpa using hi),
    List.getD_eq_getElem _ _ (by simpa using hj)]
  rw [List.getD_eq_getElem _ _ hi, List.getD_eq_getElem _ _ hj] at hij
  simp only [List.getElem_map]
  exact congrArg fk.call hij

/-- Witness for C5: in the session `[[2], [0], [2]]` of the concrete
frozen kernel `fkC4`, the first and third calls have identical inputs
and produce identical outputs. -/
theorem frozen_C5_determinism_witness :
    ((0 : Nat) < ([[2], [0], [2]] : List (List ℚ)).length ∧
      (2 : Nat) < ([[2], [0], [2]] : List (List ℚ)).length ∧
      ([[2], [0], [2]] : List (List ℚ)).getD 0 [] =
        ([[2], [0], [2]] : List (List ℚ)).getD 2 []) ∧
    (fkC4.session [[2], [0], [2]]).getD 0 [] =
      (fkC4.session [[2], [0], [2]]).getD 2 [] :=
  ⟨⟨by decide, by decide, by decide⟩,
    frozen_C5_determinism fkC4 [[2], [0], [2]] 0 2 (by decide) (by decide)
      (by decide)⟩

/-- C9: every successfully constructed `PowerSpace` has validated data:
`pindex` is the searchsorted bin assignment, `rho` is its bincount, and
— enforced by the construction-time assertion — every entry of `rho` is
positive, so no power bin is empty and the per-bin `kindex` average
divides by a positive count. -/
theorem power_space_C9_no_empty_bins (distance_array binbounds : List ℚ)
    (ps : PowerSpace)
    (h : PowerSpace.make distance_array binbounds = .ok ps) :
    ps.pindex = PowerSpace.compute_pindex binbounds distance_array ∧
    ps.rho = bincount ps.pindex ∧
    ∀ r ∈ ps.rho, 0 < r := by
  unfold PowerSpace.make at h
  split at h
  · cases h
  · rename_i hguard
    cases h
    refine ⟨rfl, rfl, ?_⟩
    intro r hr
    by_contra hc
    exact hguard (List.any_eq_true.mpr ⟨r, hr, by simp; omega⟩)

/-- Witness for C9: the `PowerSpace` over distances `[0, 1, 2]` with
bin bounds `[1/2, 3/2]` constructs successfully and has all bin counts
positive. -/
theorem power_space_C9_witness :
    PowerSpace.make [0, 1, 2] [1/2, 3/2] = .ok psC9 ∧
    (psC9.pindex = PowerSpace.compute_pindex [1/2, 3/2] [0, 1, 2] ∧
      psC9.rho = bincount psC9.pindex ∧
      ∀ r ∈ psC9.rho, 0 < r) := by
  have hpi : PowerSpace.compute_pindex [1/2, 3/2] [0, 1, 2] = [0, 1, 2] := by
    simp [PowerSpace.compute_pindex, searchsorted, List.countP,
      List.countP.go]
    norm_num
  have hmk : PowerSpace.make [0, 1, 2] [1/2, 3/2] = .ok psC9 := by
    simp only [PowerSpace.make, hpi]
    simp [bincount, bincountWeighted, List.range_succ, psC9]
  exact ⟨hmk, power_space_C9_no_empty_bins [0, 1, 2] [1/2, 3/2] psC9 hmk⟩

/-- C10: a `Field` never implicitly converts to a boolean —
truth-testing any `Field`, whatever its domain or values, raises
`TypeError` (`Field.__bool__`, `field.py` lines 81-86). -/
theorem field_C10_bool_raises (f : Nifty.Field) :
    f.toBool = .error .typeError := rfl

/-- Every entry of a freeze-time cache holds the true kernel's value at
its own key: insertions store `(d, kernel d)` and hits only reorder. -/
theorem freezeCache_value_eq (kernel : ℚ → ℚ) (rtol atol : ℚ) (bs : Nat)
    (keys : List ℚ) :
    ∀ e ∈ freezeCache kernel rtol atol bs keys, e.2 = kernel e.1 := by
  suffices h : ∀ (ks : List ℚ) (c : KCache),
      (∀ e ∈ c, e.2 = kernel e.1) →
      ∀ e ∈ ks.foldl (freezeStep kernel rtol atol bs) c, e.2 = kernel e.1 by
    exact h keys [] (by simp)
  intro ks
  induction ks with
  | nil => intro c hc; simpa using hc
  | cons d rest ih =>
    intro c hc
    simp only [List.foldl_cons]
    apply ih
    intro e he
    unfold freezeStep at he
    cases hfind : cacheFind rtol atol c d with
    | some e0 =>
      rw [hfind] at he
      simp only [List.mem_cons] at he
      rcases he with rfl | he
      · exact hc _ (List.mem_of_find?_eq_some hfind)
      · exact hc _ (List.mem_of_mem_erase he)
    | none =>
      rw [hfind] at he
      have he' := List.take_subset _ _ he
      simp only [List.mem_cons] at he'
      rcases he' with rfl | he'
      · rfl
      · exact hc _ he'

/-- Counterexample for C4: for the jump covariance `kJump` (0 below
distance 1, 100 above), freezing with `rtol = 0`, `atol = 1` over keys
`[1, 2]` treats the key 2 as an approximate hit on the cached key 1, so
the frozen kernel returns 0 there while the true kernel value is 100 —
far outside `atol + rtol * |true|`. -/
theorem frozen_C4_counterexample :
    freeze kJump 0 1 10 [1, 2] = .ok fkC4 ∧
    cacheFind fkC4.rtol fkC4.atol fkC4.cache 2 = some (1, 0) ∧
    ¬ (|fkC4.eval 2 - kJump 2| ≤ 1 + 0 * |kJump 2|) := by
  have hcache : freezeCache kJump 0 1 10 [1, 2] = [(1, 0)] := by
    simp [freezeCache, freezeStep, cacheFind, tolMatch, kJump, List.find?]
    norm_num
  have hfind : cacheFind (0 : ℚ) 1 [(1, 0)] 2 = some (1, 0) := by
    simp [cacheFind, tolMatch, List.find?]
    norm_num
  refine ⟨?_, ?_, ?_⟩
  · simp [freeze, fkC4, hcache]
  · exact hfind
  · have heval : fkC4.eval 2 = 0 := by
      unfold FrozenKernel.eval
      rw [show fkC4.rtol = 0 from rfl, show fkC4.atol = 1 from rfl,
        show fkC4.cache = [(1, 0)] from rfl, hfind]
    rw [heval]
    norm_num [kJump]

/-- C4 (amended): a frozen kernel returns the true kernel's value at a
cache key within the tolerance budget `atol + rtol * |query|` of the
query's key, and exactly the true kernel's value when no cached key is
within tolerance; the returned value need not be within
`atol + rtol * |true value|` of the true value at the query itself. -/
theorem frozen_C4_key_tolerance (kernel : ℚ → ℚ) (rtol atol : ℚ)
    (bs : Nat) (keys : List ℚ) (fk : FrozenKernel)
    (hfk : freeze kernel rtol atol bs keys = .ok fk) (d : ℚ) :
    (∀ e, cacheFind fk.rtol fk.atol fk.cache d = some e →
      fk.eval d = kernel e.1 ∧ |d - e.1| ≤ atol + rtol * |d|) ∧
    (cacheFind fk.rtol fk.atol fk.cache d = none → fk.eval d = kernel d) := by
  unfold freeze at hfk
  split at hfk
  · cases hfk
  · cases hfk
    constructor
    · intro e he
      constructor
      · unfold FrozenKernel.eval
        rw [he]
        exact freezeCache_value_eq kernel rtol atol bs keys e
          (List.mem_of_find?_eq_some he)
      · have := List.find?_some he
        simpa [tolMatch] using this
    · intro hnone
      unfold FrozenKernel.eval
      rw [hnone]

/-- Witness for the amended C4 at the concrete frozen kernel `fkC4` and
query key 2. -/
theorem frozen_C4_key_tolerance_witness :
    freeze kJump 0 1 10 [1, 2] = .ok fkC4 ∧
    ((∀ e, cacheFind fkC4.rtol fkC4.atol fkC4.cache 2 = some e →
        fkC4.eval 2 = kJump e.1 ∧ |(2 : ℚ) - e.1| ≤ 1 + 0 * |(2 : ℚ)|) ∧
      (cacheFind fkC4.rtol fkC4.atol fkC4.cache 2 = none →
        fkC4.eval 2 = kJump 2)) := by
  have hmk : freeze kJump 0 1 10 [1, 2] = .ok fkC4 := by
    have hcache : freezeCache kJump 0 1 10 [1, 2] = [(1, 0)] := by
      simp [freezeCache, freezeStep, cacheFind, tolMatch, kJump, List.find?]
      norm_num
    simp [freeze, fkC4, hcache]
  exact ⟨hmk, frozen_C4_key_tolerance kJump 0 1 10 [1, 2] fkC4 hmk 2⟩

/-- C8: invalid construction parameters raise `ConfigurationError` and
nothing is constructed: `Grid` construction fails whenever `shape0` has
a non-positive entry or any split factor is non-positive,
`HEALPixGrid` construction fails for non-positive `nside0`, and
`freeze` fails whenever `buffer_size <= 0`. -/
theorem grid_C8_configuration_errors
    (shape0 : List Int) (splits : List (List Int)) (nside0 : Int)
    (dep : Nat) (kernel : ℚ → ℚ) (rtol atol : ℚ) (bufferSize : Nat)
    (keys : List ℚ) :
    (((∃ s ∈ shape0, s ≤ 0) ∨ ∃ sp ∈ splits, ∃ f ∈ sp, f ≤ 0) →
      Grid.make shape0 splits = .error .configurationError) ∧
    (nside0 ≤ 0 → HEALPixGrid.make nside0 dep = .error .configurationError) ∧
    (bufferSize = 0 →
      freeze kernel rtol atol bufferSize keys =
        .error .configurationError) := by
  refine ⟨?_, ?_, ?_⟩
  · intro h
    unfold Grid.make
    split
    · rename_i hcond
      exfalso
      rcases h with ⟨s, hs, hs0⟩ | ⟨sp, hsp, f, hf, hf0⟩
      · have := List.all_eq_true.mp hcond.1 s hs
        simp only [decide_eq_true_eq] at this
        omega
      · have h1 := List.all_eq_true.mp hcond.2 sp hsp
        simp only [decide_eq_true_eq] at h1
        have h2 := List.all_eq_true.mp h1.2 f hf
        simp only [decide_eq_true_eq] at h2
        omega
    · rfl
  · intro h
    unfold HEALPixGrid.make
    split
    · rename_i hcond; omega
    · rfl
  · intro h
    subst h
    rfl

/-- Witness for C8 at `shape0 = (0,)`, `nside0 = 0` and
`buffer_size = 0`. -/
theorem grid_C8_configuration_errors_witness :
    (((∃ s ∈ ([0] : List Int), s ≤ 0) ∨
        ∃ sp ∈ ([] : List (List Int)), ∃ f ∈ sp, f ≤ 0) ∧
      (0 : Int) ≤ 0 ∧ (0 : Nat) = 0) ∧
    (Grid.make [0] [] = .error .configurationError ∧
      HEALPixGrid.make 0 1 = .error .configurationError ∧
      freeze kJump 0 1 0 [] = .error .configurationError) := by
  have h := grid_C8_configuration_errors [0] [] 0 1 kJump 0 1 0 []
  have hs : (∃ s ∈ ([0] : List Int), s ≤ 0) ∨
      ∃ sp ∈ ([] : List (List Int)), ∃ f ∈ sp, f ≤ 0 :=
    Or.inl ⟨0, by simp, le_refl 0⟩
  exact ⟨⟨hs, le_refl 0, rfl⟩, h.1 hs, h.2.1 (le_refl 0), h.2.2 rfl⟩

/-- C3: for the `OGrid` composed of `Grid(shape0=(3,), splits=(2,2,2))`,
`HEALPixGrid(nside0=4, depth=3)` and `Grid(shape0=(3,5),
splits=((1,2),)*4)` — three component grids of differing depth — the
combined children, parent and neighborhood at every level equal the
per-subgrid outer product (children, neighborhood) respectively the
concatenation (parent) of each component grid's own operation applied
to its slice of the index, each component queried at its level
`min(k, depth)`; on levels where a component is not exhausted the
wrapped operation is literally the component's own children/parent. -/
theorem ogrid_C3_outer_product
    (k : Nat) (i1 i2 i3 w1 w2 w3 : List Nat)
    (h1 : i1.length = 1) (h2 : i2.length = 1) (h3 : i3.length = 2)
    (hw1 : w1.length = 1) (hw2 : w2.length = 1) (hw3 : w3.length = 2) :
    OGrid.children ogC3 k (i1 ++ i2 ++ i3) =
      outerProd [gridC3a.toAbs.childrenOrSelf k i1,
        hpxC3.toAbs.childrenOrSelf k i2,
        gridC3b.toAbs.childrenOrSelf k i3] ∧
    OGrid.parent ogC3 k (i1 ++ i2 ++ i3) =
      gridC3a.toAbs.parentOrSelf k i1 ++ hpxC3.toAbs.parentOrSelf k i2 ++
        gridC3b.toAbs.parentOrSelf k i3 ∧
    OGrid.neighborhood ogC3 k (i1 ++ i2 ++ i3) (w1 ++ w2 ++ w3) =
      outerProd [gridC3a.neighborhood (min k 3) i1 w1,
        hpxC3.neighborhood (min k 3) i2 w2,
        gridC3b.neighborhood (min k 4) i3 w3] ∧
    (k < 3 →
      OGrid.children ogC3 k (i1 ++ i2 ++ i3) =
        outerProd [gridC3a.children k i1, hpxC3.children k i2,
          gridC3b.children k i3]) ∧
    (k ≤ 3 →
      OGrid.parent ogC3 k (i1 ++ i2 ++ i3) =
        gridC3a.parent k i1 ++ hpxC3.parent k i2 ++
          gridC3b.parent k i3) := by
  have hnd : OGrid.ndims ogC3 k = [1, 1, 2] := by
    have ha : (gridC3a.shapeAt (min k 3)).length = 1 := by
      have hm : min k 3 = 0 ∨ min k 3 = 1 ∨ min k 3 = 2 ∨ min k 3 = 3 := by
        omega
      rcases hm with h | h | h | h <;> rw [h] <;> rfl
    have hb : (gridC3b.shapeAt (min k 4)).length = 2 := by
      have hm : min k 4 = 0 ∨ min k 4 = 1 ∨ min k 4 = 2 ∨ min k 4 = 3 ∨
          min k 4 = 4 := by omega
      rcases hm with h | h | h | h | h <;> rw [h] <;> rfl
    simp [OGrid.ndims, ogC3, Grid.toAbs, HEALPixGrid.toAbs,
      HEALPixGrid.shapeAt, show gridC3a.depth = 3 from rfl,
      show gridC3b.depth = 4 from rfl, show hpxC3.depth = 3 from rfl,
      ha, hb]
  have hslI : sliceBy [1, 1, 2] (i1 ++ i2 ++ i3) = [i1, i2, i3] := by
    simp only [List.append_assoc, sliceBy]
    rw [List.take_left' h1, List.drop_left' h1, List.take_left' h2,
      List.drop_left' h2, List.take_of_length_le (le_of_eq h3)]
  have hslW : sliceBy [1, 1, 2] (w1 ++ w2 ++ w3) = [w1, w2, w3] := by
    simp only [List.append_assoc, sliceBy]
    rw [List.take_left' hw1, List.drop_left' hw1, List.take_left' hw2,
      List.drop_left' hw2, List.take_of_length_le (le_of_eq hw3)]
  have hA : OGrid.children ogC3 k (i1 ++ i2 ++ i3) =
      outerProd [gridC3a.toAbs.childrenOrSelf k i1,
        hpxC3.toAbs.childrenOrSelf k i2,
        gridC3b.toAbs.childrenOrSelf k i3] := by
    unfold OGrid.children
    rw [hnd, hslI]
    rfl
  have hB : OGrid.parent ogC3 k (i1 ++ i2 ++ i3) =
      gridC3a.toAbs.parentOrSelf k i1 ++ hpxC3.toAbs.parentOrSelf k i2 ++
        gridC3b.toAbs.parentOrSelf k i3 := by
    unfold OGrid.parent
    rw [hnd, hslI]
    simp [ogC3]
  refine ⟨hA, hB, ?_, ?_, ?_⟩
  · unfold OGrid.neighborhood
    rw [hnd, hslI, hslW]
    rfl
  · intro hk
    rw [hA]
    have hk4 : k < 4 := by omega
    simp [AbsGrid.childrenOrSelf, Grid.toAbs, HEALPixGrid.toAbs,
      show gridC3a.depth = 3 from rfl, show gridC3b.depth = 4 from rfl,
      show hpxC3.depth = 3 from rfl, hk, hk4]
  · intro hk
    rw [hB]
    have hk4 : k ≤ 4 := by omega
    simp [AbsGrid.parentOrSelf, Grid.toAbs, HEALPixGrid.toAbs,
      show gridC3a.depth = 3 from rfl, show gridC3b.depth = 4 from rfl,
      show hpxC3.depth = 3 from rfl, hk, hk4]

/-- Witness for C3 at level 1, index `[0] ++ [0] ++ [0, 0]` and window
`(3, 9, 2, 3)` (the windows exercised by `test_OGrid`). -/
theorem ogrid_C3_outer_product_witness :
    (([0] : List Nat).length = 1 ∧ ([0, 0] : List Nat).length = 2 ∧
      ([3] : List Nat).length = 1 ∧ ([9] : List Nat).length = 1 ∧
      ([2, 3] : List Nat).length = 2) ∧
    (OGrid.children ogC3 1 ([0] ++ [0] ++ [0, 0]) =
      outerProd [gridC3a.toAbs.childrenOrSelf 1 [0],
        hpxC3.toAbs.childrenOrSelf 1 [0],
        gridC3b.toAbs.childrenOrSelf 1 [0, 0]] ∧
    OGrid.parent ogC3 1 ([0] ++ [0] ++ [0, 0]) =
      gridC3a.toAbs.parentOrSelf 1 [0] ++ hpxC3.toAbs.parentOrSelf 1 [0] ++
        gridC3b.toAbs.parentOrSelf 1 [0, 0] ∧
    OGrid.neighborhood ogC3 1 ([0] ++ [0] ++ [0, 0]) ([3] ++ [9] ++ [2, 3]) =
      outerProd [gridC3a.neighborhood (min 1 3) [0] [3],
        hpxC3.neighborhood (min 1 3) [0] [9],
        gridC3b.neighborhood (min 1 4) [0, 0] [2, 3]] ∧
    ((1 : Nat) < 3 →
      OGrid.children ogC3 1 ([0] ++ [0] ++ [0, 0]) =
        outerProd [gridC3a.children 1 [0], hpxC3.children 1 [0],
          gridC3b.children 1 [0, 0]]) ∧
    ((1 : Nat) ≤ 3 →
      OGrid.parent ogC3 1 ([0] ++ [0] ++ [0, 0]) =
        gridC3a.parent 1 [0] ++ hpxC3.parent 1 [0] ++
          gridC3b.parent 1 [0, 0])) :=
  ⟨⟨rfl, rfl, rfl, rfl, rfl⟩,
    ogrid_C3_outer_product 1 [0] [0] [0, 0] [3] [9] [2, 3]
      rfl rfl rfl rfl rfl rfl⟩

/-- A successfully constructed grid is well-formed. -/
theorem Grid.make_ok_wf {shape0 : List Int} {splits : List (List Int)}
    {g : Grid} (hg : Grid.make shape0 splits = .ok g) : g.WF := by
  refine ⟨?_, Grid.make_ok_splits hg⟩
  unfold Grid.make at hg
  split at hg
  · rename_i hcond
    cases hg
    intro x hx
    simp only [List.mem_map] at hx
    obtain ⟨y, hy, rfl⟩ := hx
    have := List.all_eq_true.mp hcond.1 y hy
    simp only [decide_eq_true_eq] at this
    omega
  · cases hg

/-- Level 0 of a grid has the initial shape. -/
theorem Grid.shapeAt_zero (g : Grid) : g.shapeAt 0 = g.shape0 := rfl

/-- For `k < depth`, level `k+1`'s shape is level `k`'s shape scaled
per-dimension by the split vector between them. -/
theorem Grid.shapeAt_succ {g : Grid} {k : Nat} (hk : k < g.depth) :
    g.shapeAt (k + 1) = List.zipWith (· * ·) (g.shapeAt k) (g.splitAt k) := by
  have htake : g.splits.take (k + 1) = g.splits.take k ++ [g.splitAt k] := by
    rw [List.take_succ]
    congr
    rw [List.getElem?_eq_getElem hk]
    unfold Grid.splitAt
    rw [List.getD_eq_getElem g.splits _ hk]
    rfl
  unfold Grid.shapeAt
  rw [htake, List.foldl_append]
  rfl

/-- Pointwise products of positive lists are positive. -/
theorem zipWith_mul_pos {a b : List Nat} (ha : ∀ x ∈ a, 0 < x)
    (hb : ∀ y ∈ b, 0 < y) : ∀ z ∈ List.zipWith (· * ·) a b, 0 < z := by
  induction a generalizing b with
  | nil => simp
  | cons x xs ih =>
    cases b with
    | nil => simp
    | cons y ys =>
      intro z hz
      simp only [List.zipWith_cons_cons, List.mem_cons] at hz
      rcases hz with rfl | hz
      · exact Nat.mul_pos (ha x (by simp)) (hb y (by simp))
      · exact ih (fun u hu => ha u (List.mem_cons_of_mem x hu))
          (fun u hu => hb u (List.mem_cons_of_mem y hu)) z hz

/-- Shape invariants of a well-formed grid: every level's shape has the
grid's dimensionality and only positive entries. -/
theorem Grid.shapeAt_facts {g : Grid} (hwf : g.WF) (k : Nat) :
    (g.shapeAt k).length = g.ndim ∧ ∀ n ∈ g.shapeAt k, 0 < n := by
  induction k with
  | zero => exact ⟨rfl, hwf.1⟩
  | succ j ih =>
    by_cases hj : j < g.depth
    · rw [Grid.shapeAt_succ hj]
      have hsp := hwf.2 (g.splitAt j) (Grid.splitAt_lt hj)
      constructor
      · rw [List.length_zipWith, ih.1, hsp.1]
        omega
      · exact zipWith_mul_pos ih.2 hsp.2
    · have : g.shapeAt (j + 1) = g.shapeAt j := by
        unfold Grid.shapeAt Grid.depth at *
        rw [List.take_of_length_le (by omega), List.take_of_length_le (by omega)]
      rw [this]
      exact ih

/-- A row-major flat index of a pointwise-bounded index is below the
shape's total size. -/
theorem flatten_lt {idx s : List Nat} (h : List.Forall₂ (· < ·) idx s) :
    flatten s idx < s.prod := by
  induction h with
  | nil => simp [flatten]
  | cons hab h ih =>
    rename_i a b as bs
    show a * bs.prod + flatten bs as < (b :: bs).prod
    have h1 : a * bs.prod + flatten bs as < (a + 1) * bs.prod := by
      have := ih
      calc a * bs.prod + flatten bs as < a * bs.prod + bs.prod := by omega
        _ = (a + 1) * bs.prod := by ring
    calc a * bs.prod + flatten bs as < (a + 1) * bs.prod := h1
      _ ≤ b * bs.prod := Nat.mul_le_mul_right _ (by omega)
      _ ≤ (b :: bs).prod := by simp [List.prod_cons]

/-- Un-flattening a flattened valid index recovers it. -/
theorem unflatten_flatten {idx s : List Nat}
    (h : List.Forall₂ (· < ·) idx s) : unflatten s (flatten s idx) = idx := by
  induction h with
  | nil => rfl
  | cons hab h ih =>
    rename_i a b as bs
    have hr : flatten bs as < bs.prod := flatten_lt h
    have hP : 0 < bs.prod := Nat.lt_of_le_of_lt (Nat.zero_le _) hr
    show (a * bs.prod + flatten bs as) / bs.prod ::
        unflatten bs ((a * bs.prod + flatten bs as) % bs.prod) = a :: as
    rw [child_div a bs.prod (flatten bs as) hP hr, Nat.mul_comm a bs.prod,
      Nat.mul_add_mod, Nat.mod_eq_of_lt hr, ih]

/-- A child index is pointwise below the next level's shape:
`p * s + o < n * s` whenever `p < n` and `o < s`. -/
theorem zip_child_lt (idx sp sh o : List Nat)
    (hio : List.Forall₂ (· < ·) idx sh) (ho : List.Forall₂ (· < ·) o sp)
    (hl : idx.length = sp.length) :
    List.Forall₂ (· < ·)
      (List.zipWith (fun p so => p.1 * p.2 + so) (idx.zip sp) o)
      (List.zipWith (· * ·) sh sp) := by
  induction hio generalizing sp o with
  | nil =>
    cases sp <;> simp
  | cons hin hrest ih =>
    rename_i i n irest nrest
    cases sp with
    | nil => simp at hl
    | cons s srest =>
      cases ho with
      | cons ho0 horest =>
        rename_i o0 orest
        simp only [List.zip_cons_cons, List.zipWith_cons_cons]
        refine List.Forall₂.cons ?_ (ih _ _ horest (by simpa using hl))
        calc i * s + o0 < i * s + s := by omega
          _ = (i + 1) * s := by ring
          _ ≤ n * s := Nat.mul_le_mul_right _ (by omega)

/-- Pointwise floor division of an index bounded by `sh * sp` by the
split vector `sp` is bounded by `sh`. -/
theorem zip_div_lt (idx sp sh : List Nat)
    (hidx : List.Forall₂ (· < ·) idx (List.zipWith (· * ·) sh sp))
    (hsp : ∀ x ∈ sp, 0 < x) (hls : sh.length = sp.length) :
    List.Forall₂ (· < ·) (List.zipWith (· / ·) idx sp) sh := by
  induction sh generalizing idx sp with
  | nil =>
    have : sp = [] := List.length_eq_zero.mp hls.symm
    subst this
    cases hidx
    constructor
  | cons n shrest ih =>
    cases sp with
    | nil => simp at hls
    | cons s srest =>
      simp only [List.zipWith_cons_cons] at hidx
      cases hidx with
      | cons h0 hrest =>
        rename_i i irest
        simp only [List.zipWith_cons_cons]
        refine List.Forall₂.cons ?_ ?_
        · exact (Nat.div_lt_iff_lt_mul (hsp s (by simp))).mpr h0
        · exact ih _ _ hrest (fun x hx => hsp x (List.mem_cons_of_mem s hx))
            (by simpa using hls)

/-- Pointwise remainders by a positive split vector lie below it. -/
theorem zip_mod_lt (idx sp : List Nat) (hsp : ∀ x ∈ sp, 0 < x)
    (hl : idx.length = sp.length) :
    List.Forall₂ (· < ·) (List.zipWith (· % ·) idx sp) sp := by
  induction idx generalizing sp with
  | nil =>
    have : sp = [] := List.length_eq_zero.mp hl.symm
    subst this
    constructor
  | cons i irest ih =>
    cases sp with
    | nil => simp at hl
    | cons s srest =>
      simp only [List.zipWith_cons_cons]
      exact List.Forall₂.cons (Nat.mod_lt _ (hsp s (by simp)))
        (ih _ (fun x hx => hsp x (List.mem_cons_of_mem s hx))
          (by simpa using hl))

/-- Reassembling pointwise quotients and remainders recovers the index:
`(i / s) * s + i % s = i` in every dimension. -/
theorem zip_div_mod_assemble (idx sp : List Nat)
    (hl : idx.length = sp.length) :
    List.zipWith (fun p so => p.1 * p.2 + so)
      ((List.zipWith (· / ·) idx sp).zip sp)
      (List.zipWith (· % ·) idx sp) = idx := by
  induction idx generalizing sp with
  | nil => simp
  | cons i irest ih =>
    cases sp with
    | nil => simp at hl
    | cons s srest =>
      simp only [List.zipWith_cons_cons, List.zip_cons_cons,
        List.cons.injEq]
      constructor
      · rw [Nat.mul_comm]
        exact Nat.div_add_mod i s
      · exact ih _ (by simpa using hl)

/-- Every cell of a clipped one-dimensional window lies inside the
axis. -/
theorem nbhd1_lt {n i w : Nat} (hn : 0 < n) :
    ∀ x ∈ Grid.nbhd1 n i w, x < n := by
  intro x hx
  simp only [Grid.nbhd1, List.mem_map, List.mem_range] at hx
  obtain ⟨t, _, rfl⟩ := hx
  omega

/-- Members of the Cartesian product of per-axis lists pick one element
from every axis. -/
theorem forall₂_mem_of_mem_cartesian {axes : List (List Nat)} {x : List Nat}
    (hx : x ∈ axes.foldr
      (fun ax acc => ax.flatMap fun a => acc.map (a :: ·)) [[]]) :
    List.Forall₂ (· ∈ ·) x axes := by
  induction axes generalizing x with
  | nil =>
    simp only [List.foldr_nil, List.mem_singleton] at hx
    subst hx
    constructor
  | cons ax rest ih =>
    simp only [List.foldr_cons, List.mem_flatMap, List.mem_map] at hx
    obtain ⟨a, ha, y, hy, rfl⟩ := hx
    exact List.Forall₂.cons ha (ih hy)

/-- Every member of a clipped neighborhood is pointwise inside the
(positive) shape. -/
theorem nbhd_member_lt (idx sh w c : List Nat) (hsh : ∀ n ∈ sh, 0 < n)
    (hli : idx.length = sh.length) (hlw : w.length = sh.length)
    (hc : List.Forall₂ (· ∈ ·) c
      (List.zipWith (fun p wi => Grid.nbhd1 p.2 p.1 wi) (idx.zip sh) w)) :
    List.Forall₂ (· < ·) c sh := by
  induction sh generalizing idx w c with
  | nil =>
    have h1 : idx = [] := List.length_eq_zero.mp hli
    have h2 : w = [] := List.length_eq_zero.mp hlw
    subst h1; subst h2
    cases hc
    constructor
  | cons n shrest ih =>
    cases idx with
    | nil => simp at hli
    | cons i irest =>
      cases w with
      | nil => simp at hlw
      | cons wi wrest =>
        simp only [List.zip_cons_cons, List.zipWith_cons_cons] at hc
        cases hc with
        | cons h0 hrest =>
          refine List.Forall₂.cons (nbhd1_lt (hsh n (by simp)) _ h0) ?_
          exact ih irest wrest _
            (fun x hx => hsh x (List.mem_cons_of_mem n hx))
            (by simpa using hli) (by simpa using hlw) hrest

/-- For a well-formed grid, index validity is the pointwise bound of
the index by the level's shape. -/
theorem validIndex_forall₂ {g : Grid} (hwf : g.WF) {k : Nat}
    {idx : List Nat} :
    g.validIndex k idx ↔ List.Forall₂ (· < ·) idx (g.shapeAt k) := by
  have hlen := (Grid.shapeAt_facts hwf k).1
  unfold Grid.validIndex
  rw [List.forall₂_iff_get]
  constructor
  · rintro ⟨h1, h2⟩
    refine ⟨by rw [h1, hlen], ?_⟩
    intro i h₁ h₂
    have := h2 i h₁
    rwa [List.getD_eq_getElem _ _ h₂] at this
  · rintro ⟨h1, h2⟩
    refine ⟨by rw [h1, hlen], ?_⟩
    intro i h₁
    have h₂ : i < (g.shapeAt k).length := by omega
    rw [List.getD_eq_getElem _ _ h₂]
    exact h2 i h₁ h₂

/-- Children of a valid index are valid at the next level. -/
theorem children_forall₂ {g : Grid} (hwf : g.WF) {k : Nat}
    (hk : k < g.depth) {idx : List Nat}
    (hidx : List.Forall₂ (· < ·) idx (g.shapeAt k)) :
    ∀ c ∈ g.children k idx, List.Forall₂ (· < ·) c (g.shapeAt (k + 1)) := by
  intro c hc
  simp only [Grid.children, List.mem_map] at hc
  obtain ⟨o, ho, rfl⟩ := hc
  rw [Grid.shapeAt_succ hk]
  have hsp := hwf.2 _ (Grid.splitAt_lt hk)
  refine zip_child_lt _ _ _ _ hidx (forall₂_of_mem_offsets ho) ?_
  rw [hidx.length_eq, (Grid.shapeAt_facts hwf k).1, hsp.1]

/-- The parent of a valid index at a positive level is valid at the
coarser level. -/
theorem parent_forall₂ {g : Grid} (hwf : g.WF) {k : Nat}
    (hk : k < g.depth) {idx : List Nat}
    (hidx : List.Forall₂ (· < ·) idx (g.shapeAt (k + 1))) :
    List.Forall₂ (· < ·) (g.parent (k + 1) idx) (g.shapeAt k) := by
  have hsp := hwf.2 _ (Grid.splitAt_lt hk)
  unfold Grid.parent
  simp only [Nat.add_sub_cancel]
  rw [Grid.shapeAt_succ hk] at hidx
  refine zip_div_lt _ _ _ hidx hsp.2 ?_
  rw [(Grid.shapeAt_facts hwf k).1, hsp.1]

/-- Every member of a neighborhood of a valid index is valid at the
same level. -/
theorem neighborhood_forall₂ {g : Grid} (hwf : g.WF) (k : Nat)
    {idx w : List Nat} (hidx : List.Forall₂ (· < ·) idx (g.shapeAt k))
    (hw : w.length = g.ndim) :
    ∀ c ∈ g.neighborhood k idx w,
      List.Forall₂ (· < ·) c (g.shapeAt k) := by
  intro c hc
  simp only [Grid.neighborhood] at hc
  have h2 := forall₂_mem_of_mem_cartesian hc
  exact nbhd_member_lt idx (g.shapeAt k) w c (Grid.shapeAt_facts hwf k).2
    hidx.length_eq (hw.trans (Grid.shapeAt_facts hwf k).1.symm) h2

/-- The nest ordering is undone by its inverse on valid indices at
every level up to the grid's depth. -/
theorem nest_roundtrip {g : Grid} (hwf : g.WF) :
    ∀ k, k ≤ g.depth → ∀ idx, List.Forall₂ (· < ·) idx (g.shapeAt k) →
      nestUnindex g k (nestIndex g k idx) = idx := by
  intro k
  induction k with
  | zero => intro _ idx hidx; exact unflatten_flatten hidx
  | succ j ih =>
    intro hk idx hidx
    have hj : j < g.depth := by omega
    have hsp := hwf.2 _ (Grid.splitAt_lt hj)
    have hP : 0 < (g.splitAt j).prod :=
      List.prod_pos hsp.2
    have hlen : idx.length = (g.splitAt j).length := by
      calc idx.length = (g.shapeAt (j + 1)).length := hidx.length_eq
        _ = g.ndim := (Grid.shapeAt_facts hwf (j + 1)).1
        _ = (g.splitAt j).length := hsp.1.symm
    have hmods : List.Forall₂ (· < ·)
        (List.zipWith (· % ·) idx (g.splitAt j)) (g.splitAt j) :=
      zip_mod_lt _ _ hsp.2 hlen
    have hflat : flatten (g.splitAt j)
        (List.zipWith (· % ·) idx (g.splitAt j)) < (g.splitAt j).prod :=
      flatten_lt hmods
    have hpar : List.Forall₂ (· < ·)
        (List.zipWith (· / ·) idx (g.splitAt j)) (g.shapeAt j) := by
      refine zip_div_lt _ _ _ ?_ hsp.2 ?_
      · rw [← Grid.shapeAt_succ hj]
        exact hidx
      · rw [(Grid.shapeAt_facts hwf j).1, hsp.1]
    show nestUnindex g (j + 1) (nestIndex g (j + 1) idx) = idx
    simp only [nestIndex, nestUnindex]
    rw [child_div _ _ _ hP hflat]
    have hmod : (nestIndex g j (List.zipWith (· / ·) idx (g.splitAt j)) *
        (g.splitAt j).prod +
          flatten (g.splitAt j) (List.zipWith (· % ·) idx (g.splitAt j))) %
        (g.splitAt j).prod =
        flatten (g.splitAt j) (List.zipWith (· % ·) idx (g.splitAt j)) := by
      rw [Nat.mul_comm, Nat.mul_add_mod]
      exact Nat.mod_eq_of_lt hflat
    rw [hmod, ih (by omega) _ hpar, unflatten_flatten hmods]
    exact zip_div_mod_assemble idx (g.splitAt j) hlen

/-- Both `FlatGrid` orderings are undone by their inverses on valid
indices. -/
theorem ord_roundtrip {g : Grid} (hwf : g.WF) (ord : FOrdering) {k : Nat}
    (hk : k ≤ g.depth) {idx : List Nat}
    (hidx : List.Forall₂ (· < ·) idx (g.shapeAt k)) :
    ordUnindex g ord k (ordIndex g ord k idx) = idx := by
  cases ord with
  | serial => exact unflatten_flatten hidx
  | nest => exact nest_roundtrip hwf k hk idx hidx

/-- C6: for every wrapped (well-formed) grid and both orderings,
`FlatGrid`'s children, parent and neighborhood on flat indices,
translated back through the per-level bijection, reproduce exactly the
wrapped grid's own children, parent and neighborhood of the
corresponding multi-dimensional index — only the index labeling
changes, not the topology. -/
theorem flat_C6_roundtrip (shape0 : List Int) (splits : List (List Int))
    (g : Grid) (hg : Grid.make shape0 splits = .ok g) (ord : FOrdering)
    (k : Nat) (hk : k ≤ g.depth) (idx w : List Nat)
    (hidx : g.validIndex k idx) (hw : w.length = g.ndim) :
    (k < g.depth →
      (FlatGrid.children ⟨g, ord⟩ k (ordIndex g ord k idx)).map
        (ordUnindex g ord (k + 1)) = g.children k idx) ∧
    (0 < k →
      ordUnindex g ord (k - 1)
        (FlatGrid.parent ⟨g, ord⟩ k (ordIndex g ord k idx)) =
      g.parent k idx) ∧
    (FlatGrid.neighborhood ⟨g, ord⟩ k (ordIndex g ord k idx) w).map
      (ordUnindex g ord k) = g.neighborhood k idx w := by
  have hwf := Grid.make_ok_wf hg
  have hfor := (validIndex_forall₂ hwf).mp hidx
  have hrt := ord_roundtrip hwf ord hk hfor
  refine ⟨?_, ?_, ?_⟩
  · intro hkd
    show ((g.children k (ordUnindex g ord k (ordIndex g ord k idx))).map
      (ordIndex g ord (k + 1))).map (ordUnindex g ord (k + 1)) =
        g.children k idx
    rw [hrt, List.map_map]
    have hmem : ∀ c ∈ g.children k idx,
        (ordUnindex g ord (k + 1) ∘ ordIndex g ord (k + 1)) c = id c :=
      fun c hc => ord_roundtrip hwf ord (by omega)
        (children_forall₂ hwf hkd hfor c hc)
    rw [List.map_congr_left hmem, List.map_id]
  · intro hk0
    obtain ⟨j, rfl⟩ : ∃ j, k = j + 1 :=
      ⟨k - 1, (Nat.succ_pred_eq_of_pos hk0).symm⟩
    show ordUnindex g ord (j + 1 - 1)
      (ordIndex g ord (j + 1 - 1)
        (g.parent (j + 1)
          (ordUnindex g ord (j + 1) (ordIndex g ord (j + 1) idx)))) =
      g.parent (j + 1) idx
    rw [hrt]
    simp only [Nat.add_sub_cancel]
    exact ord_roundtrip hwf ord (by omega)
      (parent_forall₂ hwf (by omega) hfor)
  · show ((g.neighborhood k (ordUnindex g ord k (ordIndex g ord k idx))
        w).map (ordIndex g ord k)).map (ordUnindex g ord k) =
      g.neighborhood k idx w
    rw [hrt, List.map_map]
    have hmem : ∀ c ∈ g.neighborhood k idx w,
        (ordUnindex g ord k ∘ ordIndex g ord k) c = id c :=
      fun c hc => ord_roundtrip hwf ord hk
        (neighborhood_forall₂ hwf k hfor hw c hc)
    rw [List.map_congr_left hmem, List.map_id]

/-- Witness for C6 at the two-dimensional grid
`Grid(shape0=(2,3), splits=((2,2),))`, nest ordering, level 1, index
`[1, 2]`, window `(3, 3)`. -/
theorem flat_C6_roundtrip_witness :
    (Grid.make [2, 3] [[2, 2]] = .ok (Grid.mk [2, 3] [[2, 2]]) ∧
      (1 : Nat) ≤ (Grid.mk [2, 3] [[2, 2]]).depth ∧
      (Grid.mk [2, 3] [[2, 2]]).validIndex 1 [1, 2] ∧
      ([3, 3] : List Nat).length = (Grid.mk [2, 3] [[2, 2]]).ndim) ∧
    ((1 < (Grid.mk [2, 3] [[2, 2]]).depth →
      (FlatGrid.children ⟨Grid.mk [2, 3] [[2, 2]], .nest⟩ 1
          (ordIndex (Grid.mk [2, 3] [[2, 2]]) .nest 1 [1, 2])).map
        (ordUnindex (Grid.mk [2, 3] [[2, 2]]) .nest 2) =
        (Grid.mk [2, 3] [[2, 2]]).children 1 [1, 2]) ∧
    (0 < 1 →
      ordUnindex (Grid.mk [2, 3] [[2, 2]]) .nest 0
        (FlatGrid.parent ⟨Grid.mk [2, 3] [[2, 2]], .nest⟩ 1
          (ordIndex (Grid.mk [2, 3] [[2, 2]]) .nest 1 [1, 2])) =
      (Grid.mk [2, 3] [[2, 2]]).parent 1 [1, 2]) ∧
    (FlatGrid.neighborhood ⟨Grid.mk [2, 3] [[2, 2]], .nest⟩ 1
        (ordIndex (Grid.mk [2, 3] [[2, 2]]) .nest 1 [1, 2]) [3, 3]).map
      (ordUnindex (Grid.mk [2, 3] [[2, 2]]) .nest 1) =
      (Grid.mk [2, 3] [[2, 2]]).neighborhood 1 [1, 2] [3, 3]) :=
  ⟨⟨rfl, by decide, by decide, rfl⟩,
    flat_C6_roundtrip [2, 3] [[2, 2]] (Grid.mk [2, 3] [[2, 2]]) rfl .nest
      1 (by decide) [1, 2] [3, 3] (by decide) rfl⟩
